import Mathlib

/-!
Verification development for the fetlife-data-tools repository.

The Go sources are shallowly embedded: Go byte strings are modelled as
`List Char` (faithful for the ASCII data handled here; UTF-8 is
self-synchronizing, so byte-level substring search agrees with
character-level search for valid UTF-8 needles), and file I/O is modelled
by passing contents and recording write events explicitly.

The YAML library (gopkg.in/yaml.v3) is an external dependency of the
repository.  Its behaviour is embedded for exactly the fragment the
program exercises: string-keyed maps whose values are plain scalar
strings or lists of plain scalar strings.  On that fragment yaml.v3
`Marshal` emits map entries with keys in sorted order (encode.go sorts
`MapKeys` via `keyList`), scalars as `key: value`, and lists as `key:`
followed by `    - item` lines (default indent 4), and `Unmarshal`
inverts that output.  Theorems about serialization are stated on values
for which this plain-scalar embedding is faithful (`plainScalar` below).
-/

namespace FDT

/-- Go strings are modelled as lists of characters. -/
abbrev Str := List Char

/-- Conversion from Lean string literals to the model's string type. -/
def strOf (s : String) : Str := s.data

/-- Embeds Go `strings.HasPrefix` (argument order: pattern, string). -/
def startsList : Str → Str → Bool
  | [], _ => true
  | _ :: _, [] => false
  | p :: ps, c :: cs => p = c && startsList ps cs

/-- Embeds Go `strings.Index`: index of the first occurrence of `pat` in
`s`, or `none` where Go returns `-1`. -/
def indexOfSub : Str → Str → Option Nat
  | [], pat => if pat = [] then some 0 else none
  | c :: t, pat =>
    if startsList pat (c :: t) then some 0 else (indexOfSub t pat).map (· + 1)

/-- Embeds Go `strings.Contains`. -/
def containsSub (s pat : Str) : Bool := (indexOfSub s pat).isSome

/-- Embeds Go `strings.HasSuffix`. -/
def endsList (s pat : Str) : Bool := startsList pat.reverse s.reverse

/-- ASCII lowercasing of one character, as Go `strings.ToLower` acts on
the ASCII data processed by this program. -/
def lowerChar (c : Char) : Char :=
  if 'A' ≤ c ∧ c ≤ 'Z' then Char.ofNat (c.toNat + 32) else c

/-- Embeds Go `strings.ToLower` (ASCII fragment). -/
def lowerStr (s : Str) : Str := s.map lowerChar

/-- ASCII whitespace, as trimmed by Go `strings.TrimSpace`. -/
def isSpaceChar (c : Char) : Bool :=
  c = ' ' ∨ c = '\t' ∨ c = '\n' ∨ c = '\r'

/-- Embeds Go `strings.TrimSpace` (ASCII fragment). -/
def trimSpace (s : Str) : Str :=
  (s.dropWhile isSpaceChar).reverse.dropWhile isSpaceChar |>.reverse

/-- Embeds Go `strings.Split` with a one-character separator. -/
def splitOnChar (sep : Char) : Str → List Str
  | [] => [[]]
  | c :: t =>
    if c = sep then [] :: splitOnChar sep t
    else
      match splitOnChar sep t with
      | [] => [[c]]
      | s :: ss => (c :: s) :: ss

/-- Splits a string at its first colon: embeds `strings.SplitN(s, ":", 2)`,
returning `none` when no colon occurs (Go then returns a 1-element slice). -/
def splitAtColon : Str → Option (Str × Str)
  | [] => none
  | c :: t =>
    if c = ':' then some ([], t)
    else (splitAtColon t).map (fun p => (c :: p.1, p.2))

/-- Fuel-driven worker for `replaceAll`. -/
def replaceAllGo (fuel : Nat) (s old new : Str) : Str :=
  match fuel with
  | 0 => s
  | fuel + 1 =>
    match s with
    | [] => []
    | c :: t =>
      if old ≠ [] ∧ startsList old s then
        new ++ replaceAllGo fuel (s.drop old.length) old new
      else
        c :: replaceAllGo fuel t old new

/-- Embeds Go `strings.ReplaceAll` for a non-empty pattern: non-overlapping
replacement scanning left to right. -/
def replaceAll (s old new : Str) : Str := replaceAllGo s.length s old new

/-- A YAML value of the fragment the program stores in front matter:
a scalar string or a list of strings. -/
inductive YamlValue where
  | str (v : Str)
  | list (items : List Str)
deriving DecidableEq, Repr

/-- A YAML mapping, in emission order. -/
abbrev Metadata := List (Str × YamlValue)

/-- The lines yaml.v3 emits for one map entry of the embedded fragment. -/
def yamlEntryLines : Str × YamlValue → List Str
  | (k, .str v) => [k ++ strOf ": " ++ v]
  | (k, .list items) => (k ++ [':']) :: items.map (fun it => strOf "    - " ++ it)

/-- Joins lines, terminating each with a newline. -/
def joinLines (ls : List Str) : Str := (ls.map (· ++ ['\n'])).flatten

/-- Embeds yaml.v3 `Marshal` on the fragment: emit each entry's lines in
the order of the (already sorted) metadata list. -/
def yamlMarshal (md : Metadata) : Str := joinLines (md.flatMap yamlEntryLines)

/-- The in-memory document: embeds `obsidian.Page` (Vault.go).  `FilePath`
is not modelled; file locations appear as explicit write-event paths. -/
structure Page where
  title : Str := []
  folder : Str := []
  tags : List Str := []
  aliases : List Str := []
  url : Str := []
  urlAliases : List Str := []
  webBadgeColor : Str := []
  webMessage : Str := []
  content : Str := []
deriving DecidableEq, Repr

/-- The metadata mapping built by `Page.Save` (Vault.go lines 166-192):
only non-empty fields, with keys in the sorted order in which yaml.v3
emits the Go map (aliases, tags, url, url-aliases, web-badge-color,
web-message). -/
def buildMetadata (p : Page) : Metadata :=
  (if p.aliases ≠ [] then [(strOf "aliases", YamlValue.list p.aliases)] else []) ++
  (if p.tags ≠ [] then [(strOf "tags", YamlValue.list p.tags)] else []) ++
  (if p.url ≠ [] then [(strOf "url", YamlValue.str p.url)] else []) ++
  (if p.urlAliases ≠ [] then [(strOf "url-aliases", YamlValue.list p.urlAliases)] else []) ++
  (if p.webBadgeColor ≠ [] then [(strOf "web-badge-color", YamlValue.str p.webBadgeColor)] else []) ++
  (if p.webMessage ≠ [] then [(strOf "web-message", YamlValue.str p.webMessage)] else [])

/-- Embeds `Page.Save` (Vault.go lines 165-214): front matter block when
the metadata mapping is non-empty, then the body verbatim. -/
def savePage (p : Page) : Str :=
  let md := buildMetadata p
  if md ≠ [] then
    strOf "---\n" ++ yamlMarshal md ++ strOf "---\n" ++ p.content
  else
    p.content

/-- True when the line begins with a space (a YAML list-item line of the
embedded fragment). -/
def startsWithSpace : Str → Bool
  | ' ' :: _ => true
  | _ => false

/-- Parses one list-item line `  - item` / `    - item` of the fragment. -/
def itemOfLine (l : Str) : Option Str :=
  let l' := l.dropWhile (· = ' ')
  if startsList (strOf "- ") l' then some (l'.drop 2) else none

/-- Closes a pending list entry of the line parser. -/
def closeOpen (acc : Metadata) : Option (Str × List Str) → Metadata
  | none => acc
  | some (k, items) => acc ++ [(k, YamlValue.list items)]

/-- Line-by-line parser for the YAML fragment emitted by `yamlMarshal`:
embeds yaml.v3 `Unmarshal` on that fragment (`none` where Unmarshal
errors or leaves the fragment). -/
def parseLinesGo (acc : Metadata) (pending : Option (Str × List Str)) :
    List Str → Option Metadata
  | [] => some (closeOpen acc pending)
  | line :: rest =>
    if startsWithSpace line then
      match pending with
      | none => none
      | some (k, items) =>
        match itemOfLine line with
        | none => none
        | some it => parseLinesGo acc (some (k, items ++ [it])) rest
    else
      let acc' := closeOpen acc pending
      match splitAtColon line with
      | none => none
      | some (k, after) =>
        if k = [] then none
        else
          match after with
          | [] => parseLinesGo acc' (some (k, [])) rest
          | ' ' :: v => parseLinesGo (acc' ++ [(k, YamlValue.str v)]) none rest
          | _ => none

/-- Splits a string into its non-empty lines. -/
def linesOf (s : Str) : List Str := (splitOnChar '\n' s).filter (· ≠ [])

/-- Embeds yaml.v3 `Unmarshal` into `map[string]interface` on the
fragment of YAML documents this program produces and consumes. -/
def yamlUnmarshal (s : Str) : Option Metadata := parseLinesGo [] none (linesOf s)

/-- First value for a key, as Go map indexing after Unmarshal. -/
def lookupMd (md : Metadata) (k : Str) : Option YamlValue :=
  (md.find? (fun e => e.1 = k)).map (·.2)

/-- Embeds the `metadata[key].([]interface)` probe of loadPage: list
values pass, anything else reads as absent. -/
def getList (md : Metadata) (k : Str) : List Str :=
  match lookupMd md k with
  | some (.list items) => items
  | _ => []

/-- Embeds the `metadata[key].(string)` probe of loadPage: scalar values
pass, anything else reads as absent. -/
def getStr (md : Metadata) (k : Str) : Str :=
  match lookupMd md k with
  | some (.str v) => v
  | _ => []

/-- Embeds `loadPage` (Vault.go lines 82-162) on the file content.  Title
and folder are derived from the file path by the caller and left empty
here.  Returns `none` where loadPage returns a YAML error. -/
def loadPageFromString (contentStr : Str) : Option Page :=
  if startsList (strOf "---\n") contentStr then
    match indexOfSub (contentStr.drop 4) (strOf "---\n") with
    | some endIdx =>
      let frontmatter := (contentStr.drop 4).take endIdx
      let body := contentStr.drop (endIdx + 8)
      match yamlUnmarshal frontmatter with
      | none => none
      | some md =>
        some { tags := getList md (strOf "tags")
               aliases := getList md (strOf "aliases")
               url := getStr md (strOf "url")
               urlAliases := getList md (strOf "url-aliases")
               webBadgeColor := getStr md (strOf "web-badge-color")
               webMessage := getStr md (strOf "web-message")
               content := body }
    | none => some {}
  else
    some { content := contentStr }

/-- The six metadata fields and the body of a page, the data the spec's
round-trip property ranges over. -/
structure PageFields where
  tags : List Str
  aliases : List Str
  url : Str
  urlAliases : List Str
  webBadgeColor : Str
  webMessage : Str
  content : Str
deriving DecidableEq, Repr

/-- Projection of a page to its six metadata fields and body. -/
def fieldsOf (p : Page) : PageFields :=
  ⟨p.tags, p.aliases, p.url, p.urlAliases, p.webBadgeColor, p.webMessage, p.content⟩

/-- The metadata mapping `Page.Save` builds when all six fields are
non-empty, in yaml.v3's sorted key order. -/
def fullMetadata (p : Page) : Metadata :=
  [(strOf "aliases", YamlValue.list p.aliases),
   (strOf "tags", YamlValue.list p.tags),
   (strOf "url", YamlValue.str p.url),
   (strOf "url-aliases", YamlValue.list p.urlAliases),
   (strOf "web-badge-color", YamlValue.str p.webBadgeColor),
   (strOf "web-message", YamlValue.str p.webMessage)]

/-- The front-matter lines emitted for `fullMetadata`. -/
def fullLines (p : Page) : List Str :=
  (strOf "aliases" ++ [':']) ::
    (p.aliases.map (fun it => strOf "    - " ++ it) ++
    ((strOf "tags" ++ [':']) ::
    (p.tags.map (fun it => strOf "    - " ++ it) ++
    ((strOf "url" ++ ':' :: ' ' :: p.url) ::
    ((strOf "url-aliases" ++ [':']) ::
    (p.urlAliases.map (fun it => strOf "    - " ++ it) ++
    ((strOf "web-badge-color" ++ ':' :: ' ' :: p.webBadgeColor) ::
    (strOf "web-message" ++ ':' :: ' ' :: p.webMessage) :: [])))))))

/-- A document whose tag value ends in `---`, breaking the round trip:
its serialized form contains the delimiter byte sequence inside the
metadata block. -/
def dashTagPage : Page :=
  { tags := [strOf "x---"], aliases := [strOf "alias1"], url := strOf "u1"
    urlAliases := [strOf "ua1"], webBadgeColor := strOf "c1"
    webMessage := strOf "m1", content := strOf "B\n" }

/-- A document with plain-scalar values on which the round trip holds. -/
def safeRoundtripPage : Page :=
  { tags := [strOf "person", strOf "friend"], aliases := [strOf "Ally"]
    url := strOf "https://fetlife.com/users/x1"
    urlAliases := [strOf "https://fl.example/x1"]
    webBadgeColor := strOf "red", webMessage := strOf "hi.there"
    content := strOf "# Notes\nBody text\n" }

/-- Embeds `program.BlockedRecord`. -/
structure BlockedRecord where
  userID : Str
  createdAt : Str
  updatedAt : Str
  nickname : Str
deriving DecidableEq, Repr

/-- Embeds `program.PrivateNoteRecord`. -/
structure PrivateNoteRecord where
  memberID : Str
  createdAt : Str
  updatedAt : Str
  privateNote : Str
deriving DecidableEq, Repr

/-- The per-page match test of `SyncCmd.findPageByUserID`: the main URL or
some URL alias contains `/users/<id>` or ends with `/<id>`. -/
def pageMatchesUser (userID : Str) (p : Page) : Bool :=
  (containsSub p.url (strOf "/users/" ++ userID) ||
    endsList p.url (['/'] ++ userID)) ||
  p.urlAliases.any (fun ua =>
    containsSub ua (strOf "/users/" ++ userID) || endsList ua (['/'] ++ userID))

/-- Embeds `SyncCmd.findPageByUserID` with its loop structure: check the
main URL, continue on a hit, otherwise scan the URL aliases. -/
def findPageByUserID (pages : List Page) (userID : Str) : List Page :=
  match pages with
  | [] => []
  | p :: rest =>
    if containsSub p.url (strOf "/users/" ++ userID) ||
        endsList p.url (['/'] ++ userID) then
      p :: findPageByUserID rest userID
    else if p.urlAliases.any (fun ua =>
        containsSub ua (strOf "/users/" ++ userID) ||
          endsList ua (['/'] ++ userID)) then
      p :: findPageByUserID rest userID
    else
      findPageByUserID rest userID

/-- The field-update step of `SyncCmd.processBlocked` (part_004 lines
213-229): ensure the `blocked` tag, then set the web message when empty. -/
def applyBlockedUpdate (blocked : BlockedRecord) (p : Page) : Page :=
  let p1 :=
    if p.tags.any (fun t => t = strOf "blocked") then p
    else { p with tags := p.tags ++ [strOf "blocked"] }
  if p1.webMessage = [] then
    { p1 with webMessage := strOf "Blocked on " ++ blocked.createdAt }
  else
    p1

/-- Embeds `parseFolderConfig`: split at the first colon; keywords are the
comma-separated pieces after it, trimmed, lowercased, empties dropped. -/
def parseFolderConfig (config : Str) : Str × List Str :=
  match splitAtColon config with
  | none => (config, [])
  | some (folder, rest) =>
    if rest ≠ [] then
      (folder, (splitOnChar ',' rest).filterMap (fun kw =>
        let trimmed := trimSpace kw
        if trimmed ≠ [] then some (lowerStr trimmed) else none))
    else
      (folder, [])

/-- The keyword scan of `determineFolderForUser`: first rule (in order)
with a keyword (in order) contained in the lowered note wins. -/
def firstKeywordFolder (configs : List Str) (lowerNote : Str) : Option Str :=
  match configs with
  | [] => none
  | config :: rest =>
    let parsed := parseFolderConfig config
    if parsed.2.any (fun kw => containsSub lowerNote kw) then some parsed.1
    else firstKeywordFolder rest lowerNote

/-- Embeds `SyncCmd.determineFolderForUser` (part_004 lines 314-345).
The `userID` argument is used only for logging in the source. -/
def determineFolderForUser (createPeopleIn : List Str) (privateNote : Str) : Str :=
  match createPeopleIn with
  | [] => strOf "People"
  | c0 :: _ =>
    let matched :=
      if privateNote ≠ [] then
        firstKeywordFolder createPeopleIn (lowerStr privateNote)
      else
        none
    match matched with
    | some folder => folder
    | none => (parseFolderConfig c0).1

/-- Modelled from the spec (routeUser contract, spec section 4.3 and claim
C2): the spec-side description of folder routing, to be compared with the
source's `determineFolderForUser`. -/
def routeUserSpec (rules : List Str) (note : Str) : Str :=
  match rules with
  | [] => strOf "People"
  | r0 :: _ =>
    let hit :=
      if note ≠ [] then
        rules.find? (fun r =>
          ((parseFolderConfig r).2).any (fun kw => containsSub (lowerStr note) kw))
      else
        none
    match hit with
    | some r => (parseFolderConfig r).1
    | none => (parseFolderConfig r0).1

/-- The default template of `createPageInFolder` (part_004 lines 371-378),
with the user ID interpolated as in the source. -/
def defaultTemplate (userID : Str) : Str :=
  strOf "---\ntags:\n  - person\nurl: https://fetlife.com/users/" ++ userID ++
    strOf "\n---\n\n# Notes\n"

/-- The fixed identity-URL prefix rewritten by `createPageInFolder`. -/
def urlReplacePat : Str := strOf "url: https://fetlife.com/users/"

/-- Result of a page-creation attempt: the file write it performs and the
loaded page (`none` when loading the written file fails). -/
structure CreateResult where
  path : Str
  written : Str
  page : Option Page
deriving DecidableEq, Repr

/-- Embeds `SyncCmd.createPageInFolder` (part_004 lines 348-408).  The
template file read is modelled by `template`: `none` is the missing-file
case, which falls back to the built-in default template. -/
def createPageInFolder (template : Option Str) (userID nickname folder : Str) :
    CreateResult :=
  let pageName := if nickname = [] then strOf "user-" ++ userID else nickname
  let filePath := folder ++ ['/'] ++ pageName ++ strOf ".md"
  let templateContent := template.getD (defaultTemplate userID)
  let content1 := replaceAll templateContent (strOf "\x7b\x7btitle\x7d\x7d") pageName
  let content2 := replaceAll content1 urlReplacePat (urlReplacePat ++ userID)
  { path := filePath
    written := content2
    page := (loadPageFromString content2).map
      (fun pg => { pg with title := pageName, folder := folder }) }

/-- The configuration fields of `SyncCmd` used by record processing. -/
structure SyncConfig where
  createPeopleIn : List Str
  createBlockedIn : Str
deriving DecidableEq, Repr

/-- The observable outcome of processing one external record: the vault
pages afterwards, the file writes performed (path, bytes), and whether a
`nil` error was returned. -/
structure Outcome where
  pages : List Page
  writes : List (Str × Str)
  ok : Bool
deriving DecidableEq, Repr

/-- Replaces the first page matching `pred`, as mutation through the
pointer `pages[0]` of the match list acts on the vault. -/
def replaceFirst (pages : List Page) (pred : Page → Bool) (pNew : Page) : List Page :=
  match pages with
  | [] => []
  | p :: rest =>
    if pred p then pNew :: rest else p :: replaceFirst rest pred pNew

/-- The save path of an existing page (its vault-relative file location). -/
def pagePath (p : Page) : Str := p.folder ++ ['/'] ++ p.title ++ strOf ".md"

/-- Embeds `SyncCmd.processBlocked` (part_004 lines 178-242).  File system
errors other than a failed re-load of a created page are not modelled:
directory creation and writes always succeed here. -/
def processBlocked (template : Option Str) (cfg : SyncConfig)
    (pages : List Page) (blocked : BlockedRecord) : Outcome :=
  let found := findPageByUserID pages blocked.userID
  if found.length > 1 then
    { pages := pages, writes := [], ok := true }
  else
    match found with
    | [] =>
      let created := createPageInFolder template blocked.userID blocked.nickname
        cfg.createBlockedIn
      match created.page with
      | none =>
        { pages := pages, writes := [(created.path, created.written)], ok := false }
      | some pg =>
        let updated := applyBlockedUpdate blocked pg
        { pages := pages ++ [updated]
          writes := [(created.path, created.written), (created.path, savePage updated)]
          ok := true }
    | p :: _ =>
      let updated := applyBlockedUpdate blocked p
      { pages := replaceFirst pages (pageMatchesUser blocked.userID) updated
        writes := [(pagePath p, savePage updated)]
        ok := true }

/-- Embeds `SyncCmd.processPrivateNote` (part_004 lines 244-291); the
create branch passes an empty nickname and routes the folder through
`determineFolderForUser` with the note text. -/
def processPrivateNote (template : Option Str) (cfg : SyncConfig)
    (pages : List Page) (note : PrivateNoteRecord) : Outcome :=
  let found := findPageByUserID pages note.memberID
  if found.length > 1 then
    { pages := pages, writes := [], ok := true }
  else
    match found with
    | [] =>
      let folder := determineFolderForUser cfg.createPeopleIn note.privateNote
      let created := createPageInFolder template note.memberID [] folder
      match created.page with
      | none =>
        { pages := pages, writes := [(created.path, created.written)], ok := false }
      | some pg =>
        let updated := { pg with webMessage := note.privateNote }
        { pages := pages ++ [updated]
          writes := [(created.path, created.written), (created.path, savePage updated)]
          ok := true }
    | p :: _ =>
      let updated := { p with webMessage := note.privateNote }
      { pages := replaceFirst pages (pageMatchesUser note.memberID) updated
        writes := [(pagePath p, savePage updated)]
        ok := true }

/-- Embeds `program.MergedUser` (generate.go). -/
structure MergedUser where
  userID : Str
  nickname : Str := []
  url : Str
  blocked : Bool
  blockedAt : Str := []
  privateNote : Str := []
  noteCreated : Str := []
  noteUpdated : Str := []
deriving DecidableEq, Repr

instance : Inhabited MergedUser :=
  ⟨{ userID := [], url := [], blocked := false }⟩

/-- The profile URL synthesized by `mergeUserData`. -/
def urlOfUser (id : Str) : Str := strOf "https://fetlife.com/users/" ++ id

/-- The merged entry seeded from a blocked record. -/
def mkBlockedUser (b : BlockedRecord) : MergedUser :=
  { userID := b.userID, nickname := b.nickname, url := urlOfUser b.userID
    blocked := true, blockedAt := b.createdAt }

/-- The merged entry created from a note record with no blocked entry. -/
def mkNoteUser (n : PrivateNoteRecord) : MergedUser :=
  { userID := n.memberID, url := urlOfUser n.memberID, blocked := false
    privateNote := n.privateNote, noteCreated := n.createdAt
    noteUpdated := n.updatedAt }

/-- Filling note fields into an existing merged entry. -/
def noteInto (ex : MergedUser) (n : PrivateNoteRecord) : MergedUser :=
  { ex with privateNote := n.privateNote, noteCreated := n.createdAt
            noteUpdated := n.updatedAt }

/-- Go map assignment on an association list: update in place or append. -/
def mapSet (m : List (Str × MergedUser)) (k : Str) (v : MergedUser) :
    List (Str × MergedUser) :=
  match m with
  | [] => [(k, v)]
  | e :: rest => if e.1 = k then (k, v) :: rest else e :: mapSet rest k v

/-- Go map lookup on an association list. -/
def mapGet (m : List (Str × MergedUser)) (k : Str) : Option MergedUser :=
  (m.find? (fun e => e.1 = k)).map (·.2)

/-- One step of the private-note merge loop of `mergeUserData`. -/
def mergeNoteStep (m : List (Str × MergedUser)) (n : PrivateNoteRecord) :
    List (Str × MergedUser) :=
  match mapGet m n.memberID with
  | some ex => mapSet m n.memberID (noteInto ex n)
  | none => mapSet m n.memberID (mkNoteUser n)

/-- Embeds `mergeUserData` (generate.go lines 84-126) as the keyed map it
builds; the final map-to-slice conversion iterates the Go map in
unspecified order, so the association list (first-insertion order) stands
for the map's contents. -/
def mergeUserData (blockeds : List BlockedRecord) (notes : List PrivateNoteRecord) :
    List (Str × MergedUser) :=
  let m1 := blockeds.foldl (fun m b => mapSet m b.userID (mkBlockedUser b)) []
  notes.foldl mergeNoteStep m1

/-- The keyword scan returns the folder of the first rule whose keyword
list has a member contained in the lowered note. -/
theorem firstKeywordFolder_eq_find (configs : List Str) (ln : Str) :
    firstKeywordFolder configs ln =
      (configs.find? (fun r =>
        ((parseFolderConfig r).2).any (fun kw => containsSub ln kw))).map
        (fun r => (parseFolderConfig r).1) := by
  induction configs with
  | nil => rfl
  | cons c rest ih =>
    simp only [firstKeywordFolder, List.find?]
    by_cases h : ((parseFolderConfig c).2).any (fun kw => containsSub ln kw) = true
    · simp [h]
    · simp only [Bool.not_eq_true] at h
      simp [h, ih]

/-- Claim C2: `routeUser` is total and deterministic: with an empty rule
list it returns the literal `People`; with a non-empty note it returns the
folder of the first rule, scanned in order, one of whose parsed keywords
occurs as a case-insensitive substring of the note; otherwise it returns
the first rule's folder, ignoring that rule's keywords. -/
theorem routeUser_refines_spec (rules : List Str) (note : Str) :
    determineFolderForUser rules note = routeUserSpec rules note := by
  cases rules with
  | nil => rfl
  | cons c0 rest =>
    simp only [determineFolderForUser, routeUserSpec]
    by_cases hnote : note = []
    · simp [hnote]
    · simp [hnote, firstKeywordFolder_eq_find]
      cases (c0 :: rest).find? (fun r =>
        ((parseFolderConfig r).2).any (fun kw => containsSub (lowerStr note) kw)) <;>
        simp

/-- Claim C3: `findByIdentifier` returns exactly the documents, in
collection order, whose identity URL contains `/users/<id>` or ends with
`/<id>`, or one of whose URL aliases passes the same test; the heuristic
admits false positives: identifier `4` matches a document whose URL
encodes user `45`. -/
theorem findPageByUserID_filter_heuristic :
    (∀ (pages : List Page) (userID : Str),
        findPageByUserID pages userID = pages.filter (pageMatchesUser userID)) ∧
      (pageMatchesUser (strOf "4") { url := urlOfUser (strOf "45") } = true ∧
        strOf "4" ≠ strOf "45" ∧
        findPageByUserID [{ url := urlOfUser (strOf "45") }] (strOf "4") =
          [{ url := urlOfUser (strOf "45") }]) := by
  constructor
  · intro pages userID
    induction pages with
    | nil => rfl
    | cons p rest ih =>
      cases hc1 : containsSub p.url (strOf "/users/" ++ userID) ||
          endsList p.url (['/'] ++ userID) <;>
        cases hc2 : p.urlAliases.any (fun ua =>
            containsSub ua (strOf "/users/" ++ userID) ||
              endsList ua (['/'] ++ userID)) <;>
          (simp only [findPageByUserID, List.filter_cons, pageMatchesUser, hc1, hc2]
           simp [ih])
  · exact ⟨by decide, by decide, by decide⟩

/-- The any-scan for the `blocked` tag decides list membership. -/
theorem any_eq_mem_blocked (l : List Str) :
    (l.any fun t => t = strOf "blocked") = decide (strOf "blocked" ∈ l) := by
  induction l with
  | nil => rfl
  | cons x xs ih =>
    simp [List.any_cons, ih, List.mem_cons, eq_comm]

/-- Normal form of the blocked-record field update. -/
theorem applyBlockedUpdate_eq (b : BlockedRecord) (p : Page) :
    applyBlockedUpdate b p =
      { p with
          tags := if strOf "blocked" ∈ p.tags then p.tags
                  else p.tags ++ [strOf "blocked"]
          webMessage := if p.webMessage = [] then strOf "Blocked on " ++ b.createdAt
                        else p.webMessage } := by
  by_cases htag : strOf "blocked" ∈ p.tags <;>
    by_cases hmsg : p.webMessage = [] <;>
      simp [applyBlockedUpdate, any_eq_mem_blocked, htag, hmsg]

/-- Claim C5: the blocked-record field update is idempotent: it appends
the `blocked` tag only when absent, never reorders the tags, sets the
display message to `Blocked on <createdAt>` exactly when it was empty,
and applying it twice equals applying it once. -/
theorem blocked_update_idempotent (b : BlockedRecord) (p : Page) :
    applyBlockedUpdate b (applyBlockedUpdate b p) = applyBlockedUpdate b p ∧
      (applyBlockedUpdate b p).tags =
        (if strOf "blocked" ∈ p.tags then p.tags else p.tags ++ [strOf "blocked"]) ∧
      (applyBlockedUpdate b p).webMessage =
        (if p.webMessage = [] then strOf "Blocked on " ++ b.createdAt
         else p.webMessage) := by
  have hne : strOf "Blocked on " ++ b.createdAt ≠ [] := by
    intro h
    exact absurd (List.append_eq_nil.mp h).1 (by decide)
  refine ⟨?_, ?_, ?_⟩
  · rw [applyBlockedUpdate_eq b p, applyBlockedUpdate_eq]
    by_cases htag : strOf "blocked" ∈ p.tags <;>
      by_cases hmsg : p.webMessage = [] <;>
        simp [htag, hmsg, hne]
  · rw [applyBlockedUpdate_eq]
  · rw [applyBlockedUpdate_eq]

/-- Claim C9: a file starting with the front-matter delimiter but
containing no second `---` delimiter parses without error into a document
with empty body and zero-valued metadata; the text after the opening
delimiter is dropped. -/
theorem unterminated_frontmatter_drops_body (c : Str)
    (hstart : startsList (strOf "---\n") c = true)
    (hnone : indexOfSub (c.drop 4) (strOf "---\n") = none) :
    loadPageFromString c = some {} := by
  simp [loadPageFromString, hstart, hnone]

/-- Concrete instance of the unterminated-front-matter behaviour. -/
theorem unterminated_frontmatter_witness :
    startsList (strOf "---\n") (strOf "---\ntags: hello\nbody text") = true ∧
      indexOfSub ((strOf "---\ntags: hello\nbody text").drop 4) (strOf "---\n") =
        none ∧
      loadPageFromString (strOf "---\ntags: hello\nbody text") = some {} :=
  ⟨by decide, by decide,
    unterminated_frontmatter_drops_body (strOf "---\ntags: hello\nbody text")
      (by decide) (by decide)⟩

/-- Claim C4: when an external record's identifier matches more than one
document, processing that record is an atomic non-fatal skip: the vault
is unchanged, nothing is persisted, and a `nil` error is returned, for
the blocked path and the note path alike (the caller's loop then simply
continues with the next record). -/
theorem ambiguous_match_skips (template : Option Str) (cfg : SyncConfig)
    (pages : List Page) (b : BlockedRecord) (n : PrivateNoteRecord) :
    ((findPageByUserID pages b.userID).length > 1 →
      processBlocked template cfg pages b =
        { pages := pages, writes := [], ok := true }) ∧
    ((findPageByUserID pages n.memberID).length > 1 →
      processPrivateNote template cfg pages n =
        { pages := pages, writes := [], ok := true }) := by
  constructor
  · intro h
    simp [processBlocked, h]
  · intro h
    simp [processPrivateNote, h]

/-- Concrete instance of the ambiguity skip: two documents resolve
identifier `9`, and both record kinds leave the vault untouched. -/
theorem ambiguous_match_skips_witness :
    (findPageByUserID [{ url := urlOfUser (strOf "9") },
        { url := urlOfUser (strOf "9") }] (strOf "9")).length > 1 ∧
      processBlocked none { createPeopleIn := [], createBlockedIn := strOf "Bad People" }
        [{ url := urlOfUser (strOf "9") }, { url := urlOfUser (strOf "9") }]
        { userID := strOf "9", createdAt := strOf "2024", updatedAt := strOf "2024"
          nickname := strOf "N" } =
        { pages := [{ url := urlOfUser (strOf "9") }, { url := urlOfUser (strOf "9") }]
          writes := [], ok := true } ∧
      processPrivateNote none { createPeopleIn := [], createBlockedIn := strOf "Bad People" }
        [{ url := urlOfUser (strOf "9") }, { url := urlOfUser (strOf "9") }]
        { memberID := strOf "9", createdAt := strOf "2024", updatedAt := strOf "2024"
          privateNote := strOf "hello" } =
        { pages := [{ url := urlOfUser (strOf "9") }, { url := urlOfUser (strOf "9") }]
          writes := [], ok := true } :=
  ⟨by decide,
    (ambiguous_match_skips none
      { createPeopleIn := [], createBlockedIn := strOf "Bad People" }
      [{ url := urlOfUser (strOf "9") }, { url := urlOfUser (strOf "9") }]
      { userID := strOf "9", createdAt := strOf "2024", updatedAt := strOf "2024"
        nickname := strOf "N" }
      { memberID := strOf "9", createdAt := strOf "2024", updatedAt := strOf "2024"
        privateNote := strOf "hello" }).1 (by decide),
    (ambiguous_match_skips none
      { createPeopleIn := [], createBlockedIn := strOf "Bad People" }
      [{ url := urlOfUser (strOf "9") }, { url := urlOfUser (strOf "9") }]
      { userID := strOf "9", createdAt := strOf "2024", updatedAt := strOf "2024"
        nickname := strOf "N" }
      { memberID := strOf "9", createdAt := strOf "2024", updatedAt := strOf "2024"
        privateNote := strOf "hello" }).2 (by decide)⟩

/-- Claim C10: a document synthesized while processing a note record that
matched no existing document is always created with an empty display
name, so its title is always `user-<identifier>`, whatever the note
payload. -/
theorem note_synthesis_fallback_name (template : Option Str) (cfg : SyncConfig)
    (pages : List Page) (n : PrivateNoteRecord)
    (hzero : findPageByUserID pages n.memberID = []) :
    ∀ p ∈ (processPrivateNote template cfg pages n).pages,
      p ∈ pages ∨ p.title = strOf "user-" ++ n.memberID := by
  intro p hp
  simp only [processPrivateNote, hzero] at hp
  rcases hcp : (createPageInFolder template n.memberID []
      (determineFolderForUser cfg.createPeopleIn n.privateNote)).page with _ | pg
  · rw [hcp] at hp
    simp at hp
    exact Or.inl hp
  · rw [hcp] at hp
    simp at hp
    rcases hp with hp | hp
    · exact Or.inl hp
    · right
      have hmap := hcp
      simp only [createPageInFolder, Option.map_eq_some'] at hmap
      rcases hmap with ⟨a, _, ha⟩
      rw [hp, ← ha]
      rfl

/-- Concrete instance of the fallback naming for note synthesis. -/
theorem note_synthesis_fallback_name_witness :
    ((processPrivateNote none
        { createPeopleIn := [], createBlockedIn := strOf "Bad People" } []
        { memberID := strOf "7", createdAt := strOf "2024", updatedAt := strOf "2024"
          privateNote := strOf "a note" }).pages.getD 0 { }) ∈ ([] : List Page) ∨
      ((processPrivateNote none
        { createPeopleIn := [], createBlockedIn := strOf "Bad People" } []
        { memberID := strOf "7", createdAt := strOf "2024", updatedAt := strOf "2024"
          privateNote := strOf "a note" }).pages.getD 0 { }).title =
        strOf "user-" ++ strOf "7" :=
  note_synthesis_fallback_name none
    { createPeopleIn := [], createBlockedIn := strOf "Bad People" } []
    { memberID := strOf "7", createdAt := strOf "2024", updatedAt := strOf "2024"
      privateNote := strOf "a note" } (by decide) _ (by decide)

/-- Claim C8: with the template file absent, page creation still succeeds
from the built-in default template and yields a `person` tag; however the
default template already embeds the identifier after the fixed URL
prefix, and the prefix rewrite inserts it again, so the created page's
identity URL carries the identifier twice, not exactly once. -/
theorem default_template_doubles_user_id :
    ((createPageInFolder none (strOf "12345") (strOf "TestUser")
        (strOf "People")).page.map Page.url) =
      some (strOf "https://fetlife.com/users/1234512345") ∧
    ((createPageInFolder none (strOf "12345") (strOf "TestUser")
        (strOf "People")).page.map Page.tags) = some [strOf "person"] ∧
    strOf "https://fetlife.com/users/1234512345" ≠
      strOf "https://fetlife.com/users/" ++ strOf "12345" := by
  refine ⟨by decide, by decide, by decide⟩

/-- Counterexample to claim C7 as stated: with both tags and aliases
non-empty, serialization emits the `aliases` key before the `tags` key
(yaml.v3 sorts the Go map's keys), not `tags` first as claimed. -/
theorem serialize_key_order_counterexample :
    (buildMetadata { tags := [strOf "t1"], aliases := [strOf "a1"] }).map Prod.fst =
      [strOf "aliases", strOf "tags"] ∧
    (buildMetadata { tags := [strOf "t1"], aliases := [strOf "a1"] }).map Prod.fst ≠
      [strOf "tags", strOf "aliases"] ∧
    savePage { tags := [strOf "t1"], aliases := [strOf "a1"] } =
      strOf "---\naliases:\n    - a1\ntags:\n    - t1\n---\n" := by
  refine ⟨by decide, by decide, by decide⟩

/-- Claim C7, amended: serialization emits into the metadata block
exactly the currently non-empty fields, with their keys in the fixed
sorted order aliases, tags, url, url-aliases, web-badge-color,
web-message (the order yaml.v3 gives the Go map's keys). -/
theorem serialize_key_order_sorted (p : Page) :
    (buildMetadata p).map Prod.fst =
      (if p.aliases ≠ [] then [strOf "aliases"] else []) ++
      (if p.tags ≠ [] then [strOf "tags"] else []) ++
      (if p.url ≠ [] then [strOf "url"] else []) ++
      (if p.urlAliases ≠ [] then [strOf "url-aliases"] else []) ++
      (if p.webBadgeColor ≠ [] then [strOf "web-badge-color"] else []) ++
      (if p.webMessage ≠ [] then [strOf "web-message"] else []) := by
  have hmap : ∀ (c : Prop) [Decidable c] (k : Str) (v : YamlValue),
      (if c then [(k, v)] else []).map Prod.fst = if c then [k] else [] := by
    intro c _ k v
    split <;> rfl
  simp only [buildMetadata, List.map_append, hmap]

theorem mapGet_nil (k : Str) : mapGet [] k = none := rfl

theorem mapGet_cons (e : Str × MergedUser) (m : List (Str × MergedUser)) (k : Str) :
    mapGet (e :: m) k = if e.1 = k then some e.2 else mapGet m k := by
  by_cases h : e.1 = k
  · simp [mapGet, List.find?_cons_of_pos, h]
  · simp [mapGet, List.find?_cons_of_neg, h]

theorem mapGet_eq_none_of_not_mem (m : List (Str × MergedUser)) (k : Str)
    (h : k ∉ m.map Prod.fst) : mapGet m k = none := by
  induction m with
  | nil => rfl
  | cons e rest ih =>
    simp only [List.map_cons, List.mem_cons] at h
    push_neg at h
    rw [mapGet_cons, if_neg (fun he => h.1 he.symm), ih h.2]

theorem mapSet_fresh (m : List (Str × MergedUser)) (k : Str) (v : MergedUser)
    (h : k ∉ m.map Prod.fst) : mapSet m k v = m ++ [(k, v)] := by
  induction m with
  | nil => rfl
  | cons e rest ih =>
    simp only [List.map_cons, List.mem_cons] at h
    push_neg at h
    simp only [mapSet]
    rw [if_neg (fun he => h.1 he.symm), ih h.2]
    rfl

theorem mapGet_mapSet_self (m : List (Str × MergedUser)) (k : Str) (v : MergedUser) :
    mapGet (mapSet m k v) k = some v := by
  induction m with
  | nil => simp [mapSet, mapGet_cons]
  | cons e rest ih =>
    by_cases h : e.1 = k
    · simp [mapSet, h, mapGet_cons]
    · simp only [mapSet]
      rw [if_neg h, mapGet_cons, if_neg h, ih]

theorem mapGet_mapSet_ne (m : List (Str × MergedUser)) (k k' : Str) (v : MergedUser)
    (h : k' ≠ k) : mapGet (mapSet m k' v) k = mapGet m k := by
  induction m with
  | nil => simp [mapSet, mapGet_cons, h]
  | cons e rest ih =>
    by_cases he : e.1 = k'
    · have h1 : mapSet (e :: rest) k' v = (k', v) :: rest := by
        simp only [mapSet]
        rw [if_pos he]
      rw [h1, mapGet_cons, mapGet_cons]
      rw [if_neg (show ¬((k', v).1 = k) from h),
        if_neg (show ¬(e.1 = k) by rw [he]; exact h)]
    · simp only [mapSet]
      rw [if_neg he, mapGet_cons, mapGet_cons, ih]

theorem keys_mapSet (m : List (Str × MergedUser)) (k : Str) (v : MergedUser) :
    (mapSet m k v).map Prod.fst =
      if k ∈ m.map Prod.fst then m.map Prod.fst else m.map Prod.fst ++ [k] := by
  induction m with
  | nil => rfl
  | cons e rest ih =>
    by_cases he : e.1 = k
    · simp [mapSet, he]
    · simp only [mapSet]
      rw [if_neg he]
      simp only [List.map_cons, ih]
      by_cases hk : k ∈ rest.map Prod.fst
      · rw [if_pos hk, if_pos (by simp [hk])]
      · have hnk : k ∉ e.1 :: rest.map Prod.fst := by
          intro hm
          rcases List.mem_cons.mp hm with h1 | h1
          · exact he h1.symm
          · exact hk h1
        rw [if_neg hk, if_neg hnk, List.cons_append]

theorem nodup_keys_mapSet (m : List (Str × MergedUser)) (k : Str) (v : MergedUser)
    (h : (m.map Prod.fst).Nodup) : ((mapSet m k v).map Prod.fst).Nodup := by
  rw [keys_mapSet]
  by_cases hk : k ∈ m.map Prod.fst
  · rwa [if_pos hk]
  · rw [if_neg hk, List.nodup_append]
    exact ⟨h, List.nodup_singleton k, by simpa [List.disjoint_singleton] using hk⟩

theorem mem_keys_mapSet (m : List (Str × MergedUser)) (k k' : Str) (v : MergedUser) :
    k' ∈ (mapSet m k v).map Prod.fst ↔ k' ∈ m.map Prod.fst ∨ k' = k := by
  rw [keys_mapSet]
  by_cases hk : k ∈ m.map Prod.fst
  · rw [if_pos hk]
    constructor
    · exact fun h => Or.inl h
    · rintro (h | rfl)
      · exact h
      · exact hk
  · rw [if_neg hk]
    simp

/-- Each merge-loop step over the notes sets the key of that note. -/
theorem keys_mergeNoteStep (m : List (Str × MergedUser)) (n : PrivateNoteRecord)
    (k : Str) :
    k ∈ (mergeNoteStep m n).map Prod.fst ↔ k ∈ m.map Prod.fst ∨ k = n.memberID := by
  unfold mergeNoteStep
  cases mapGet m n.memberID <;> exact mem_keys_mapSet m n.memberID k _

theorem nodup_keys_mergeNoteStep (m : List (Str × MergedUser)) (n : PrivateNoteRecord)
    (h : (m.map Prod.fst).Nodup) : ((mergeNoteStep m n).map Prod.fst).Nodup := by
  unfold mergeNoteStep
  cases mapGet m n.memberID <;> exact nodup_keys_mapSet m n.memberID _ h

theorem mergeNoteStep_get_ne (m : List (Str × MergedUser)) (n : PrivateNoteRecord)
    (k : Str) (h : n.memberID ≠ k) : mapGet (mergeNoteStep m n) k = mapGet m k := by
  unfold mergeNoteStep
  cases mapGet m n.memberID <;> exact mapGet_mapSet_ne m k n.memberID _ h

theorem mergeNoteStep_get_self_none (m : List (Str × MergedUser))
    (n : PrivateNoteRecord) (h : mapGet m n.memberID = none) :
    mapGet (mergeNoteStep m n) n.memberID = some (mkNoteUser n) := by
  simp only [mergeNoteStep, h]
  exact mapGet_mapSet_self _ _ _

theorem mergeNoteStep_get_self_some (m : List (Str × MergedUser))
    (n : PrivateNoteRecord) (ex : MergedUser) (h : mapGet m n.memberID = some ex) :
    mapGet (mergeNoteStep m n) n.memberID = some (noteInto ex n) := by
  simp only [mergeNoteStep, h]
  exact mapGet_mapSet_self _ _ _

/-- Folding the note loop over ids different from `k` leaves `k` alone. -/
theorem foldl_note_preserves (ns : List PrivateNoteRecord)
    (m : List (Str × MergedUser)) (k : Str) (h : k ∉ ns.map (·.memberID)) :
    mapGet (ns.foldl mergeNoteStep m) k = mapGet m k := by
  induction ns generalizing m with
  | nil => rfl
  | cons n rest ih =>
    simp only [List.map_cons, List.mem_cons] at h
    push_neg at h
    rw [List.foldl_cons, ih _ h.2, mergeNoteStep_get_ne _ _ _ (fun he => h.1 he.symm)]

/-- The blocked seeding loop over fresh distinct ids appends its entries. -/
theorem foldl_blocked_fresh (bs : List BlockedRecord) (m : List (Str × MergedUser))
    (hfresh : ∀ b ∈ bs, b.userID ∉ m.map Prod.fst)
    (hnd : (bs.map (·.userID)).Nodup) :
    bs.foldl (fun m b => mapSet m b.userID (mkBlockedUser b)) m =
      m ++ bs.map (fun b => (b.userID, mkBlockedUser b)) := by
  induction bs generalizing m with
  | nil => simp
  | cons b rest ih =>
    simp only [List.map_cons, List.nodup_cons] at hnd
    rw [List.foldl_cons, mapSet_fresh m _ _ (hfresh b (by simp))]
    rw [ih (m ++ [(b.userID, mkBlockedUser b)])]
    · simp
    · intro b' hb'
      simp only [List.map_append, List.mem_append]
      push_neg
      refine ⟨hfresh b' (List.mem_cons_of_mem _ hb'), ?_⟩
      simp only [List.map_cons, List.map_nil, List.mem_singleton]
      intro he
      exact hnd.1 (he ▸ List.mem_map_of_mem (·.userID) hb')
    · exact hnd.2

/-- The note loop over ids fresh for the accumulator appends note-only
entries. -/
theorem foldl_note_fresh (ns : List PrivateNoteRecord) (m : List (Str × MergedUser))
    (hfresh : ∀ n ∈ ns, n.memberID ∉ m.map Prod.fst)
    (hnd : (ns.map (·.memberID)).Nodup) :
    ns.foldl mergeNoteStep m = m ++ ns.map (fun n => (n.memberID, mkNoteUser n)) := by
  induction ns generalizing m with
  | nil => simp
  | cons n rest ih =>
    simp only [List.map_cons, List.nodup_cons] at hnd
    have hget : mapGet m n.memberID = none :=
      mapGet_eq_none_of_not_mem m _ (hfresh n (by simp))
    rw [List.foldl_cons]
    show rest.foldl mergeNoteStep (mergeNoteStep m n) = _
    rw [show mergeNoteStep m n = m ++ [(n.memberID, mkNoteUser n)] by
      unfold mergeNoteStep
      rw [hget, mapSet_fresh m _ _ (hfresh n (by simp))]]
    rw [ih (m ++ [(n.memberID, mkNoteUser n)])]
    · simp
    · intro n' hn'
      simp only [List.map_append, List.mem_append]
      push_neg
      refine ⟨hfresh n' (List.mem_cons_of_mem _ hn'), ?_⟩
      simp only [List.map_cons, List.map_nil, List.mem_singleton]
      intro he
      exact hnd.1 (he ▸ List.mem_map_of_mem (·.memberID) hn')
    · exact hnd.2

/-- Lookup in the listified blocked entries. -/
theorem mapGet_blocked_entries (bs : List BlockedRecord) (b : BlockedRecord)
    (hb : b ∈ bs) (hnd : (bs.map (·.userID)).Nodup) :
    mapGet (bs.map (fun b => (b.userID, mkBlockedUser b))) b.userID =
      some (mkBlockedUser b) := by
  induction bs with
  | nil => cases hb
  | cons b0 rest ih =>
    simp only [List.map_cons, List.nodup_cons] at hnd
    rcases List.mem_cons.mp hb with rfl | hb'
    · simp [mapGet_cons]
    · rw [List.map_cons, mapGet_cons, if_neg, ih hb' hnd.2]
      intro he
      have he' : b0.userID = b.userID := he
      apply hnd.1
      rw [he']
      exact List.mem_map_of_mem (·.userID) hb'

/-- Running the note loop over a stream containing `n` (with distinct
note ids) inserts a note-only entry when `n`'s id was absent before. -/
theorem foldl_note_get_at_none (ns : List PrivateNoteRecord) (n : PrivateNoteRecord)
    (hn : n ∈ ns) (hnd : (ns.map (·.memberID)).Nodup)
    (m : List (Str × MergedUser)) (h : mapGet m n.memberID = none) :
    mapGet (ns.foldl mergeNoteStep m) n.memberID = some (mkNoteUser n) := by
  rcases List.append_of_mem hn with ⟨l1, l2, rfl⟩
  have hmap : (l1 ++ n :: l2).map (·.memberID) =
      l1.map (·.memberID) ++ n.memberID :: l2.map (·.memberID) := by simp
  rw [hmap, List.nodup_append] at hnd
  rcases hnd with ⟨hnd1, hnd2, hdisj⟩
  have hn1 : n.memberID ∉ l1.map (·.memberID) := fun hmem => hdisj hmem (by simp)
  have hn2 : n.memberID ∉ l2.map (·.memberID) := by
    simp only [List.nodup_cons] at hnd2
    exact hnd2.1
  have hpres : mapGet (l1.foldl mergeNoteStep m) n.memberID = mapGet m n.memberID :=
    foldl_note_preserves l1 m _ hn1
  rw [List.foldl_append, List.foldl_cons, foldl_note_preserves l2 _ _ hn2,
    mergeNoteStep_get_self_none _ _ (hpres.trans h)]

/-- Running the note loop over a stream containing `n` (with distinct
note ids) merges `n`'s fields into the entry its id already had. -/
theorem foldl_note_get_at_some (ns : List PrivateNoteRecord) (n : PrivateNoteRecord)
    (hn : n ∈ ns) (hnd : (ns.map (·.memberID)).Nodup)
    (m : List (Str × MergedUser)) (ex : MergedUser)
    (h : mapGet m n.memberID = some ex) :
    mapGet (ns.foldl mergeNoteStep m) n.memberID = some (noteInto ex n) := by
  rcases List.append_of_mem hn with ⟨l1, l2, rfl⟩
  have hmap : (l1 ++ n :: l2).map (·.memberID) =
      l1.map (·.memberID) ++ n.memberID :: l2.map (·.memberID) := by simp
  rw [hmap, List.nodup_append] at hnd
  rcases hnd with ⟨hnd1, hnd2, hdisj⟩
  have hn1 : n.memberID ∉ l1.map (·.memberID) := fun hmem => hdisj hmem (by simp)
  have hn2 : n.memberID ∉ l2.map (·.memberID) := by
    simp only [List.nodup_cons] at hnd2
    exact hnd2.1
  have hpres : mapGet (l1.foldl mergeNoteStep m) n.memberID = mapGet m n.memberID :=
    foldl_note_preserves l1 m _ hn1
  rw [List.foldl_append, List.foldl_cons, foldl_note_preserves l2 _ _ hn2,
    mergeNoteStep_get_self_some _ _ _ (hpres.trans h)]

/-- The note loop preserves distinctness of the map's keys. -/
theorem nodup_keys_foldl_note (ns : List PrivateNoteRecord)
    (m : List (Str × MergedUser)) (h : (m.map Prod.fst).Nodup) :
    (((ns.foldl mergeNoteStep m)).map Prod.fst).Nodup := by
  induction ns generalizing m with
  | nil => exact h
  | cons n rest ih => exact ih _ (nodup_keys_mergeNoteStep m n h)

/-- The keys after the note loop are the starting keys plus the note ids. -/
theorem mem_keys_foldl_note (ns : List PrivateNoteRecord)
    (m : List (Str × MergedUser)) (k : Str) :
    k ∈ (ns.foldl mergeNoteStep m).map Prod.fst ↔
      k ∈ m.map Prod.fst ∨ k ∈ ns.map (·.memberID) := by
  induction ns generalizing m with
  | nil => simp
  | cons n rest ih =>
    rw [List.foldl_cons, ih, keys_mergeNoteStep]
    simp only [List.map_cons, List.mem_cons]
    tauto

/-- Claim C6: merging blocked and note streams with unique identifiers
yields exactly one merged record per distinct identifier across both
streams: the keys are distinct and cover exactly the union of the two id
sets; with disjoint id sets there are exactly N+M records; an identifier
present only in one stream keeps only that stream's fields populated
(`mkBlockedUser` and `mkNoteUser` zero the other stream's fields), and a
shared identifier yields the single record `noteInto (mkBlockedUser b) n`
carrying both records' fields. -/
theorem mergeUserData_correct (bs : List BlockedRecord) (ns : List PrivateNoteRecord)
    (hb : (bs.map (·.userID)).Nodup) (hn : (ns.map (·.memberID)).Nodup) :
    ((mergeUserData bs ns).map Prod.fst).Nodup ∧
    (∀ k, k ∈ (mergeUserData bs ns).map Prod.fst ↔
        k ∈ bs.map (·.userID) ∨ k ∈ ns.map (·.memberID)) ∧
    ((∀ b ∈ bs, b.userID ∉ ns.map (·.memberID)) →
        (mergeUserData bs ns).length = bs.length + ns.length) ∧
    (∀ b ∈ bs, b.userID ∉ ns.map (·.memberID) →
        mapGet (mergeUserData bs ns) b.userID = some (mkBlockedUser b)) ∧
    (∀ n ∈ ns, n.memberID ∉ bs.map (·.userID) →
        mapGet (mergeUserData bs ns) n.memberID = some (mkNoteUser n)) ∧
    (∀ b ∈ bs, ∀ n ∈ ns, b.userID = n.memberID →
        mapGet (mergeUserData bs ns) b.userID =
          some (noteInto (mkBlockedUser b) n)) := by
  have hm1 : bs.foldl (fun m b => mapSet m b.userID (mkBlockedUser b)) [] =
      bs.map (fun b => (b.userID, mkBlockedUser b)) := by
    rw [foldl_blocked_fresh bs [] (fun b _ => by simp) hb]
    simp
  have hkeys1 : (bs.map (fun b => (b.userID, mkBlockedUser b))).map Prod.fst =
      bs.map (·.userID) := by
    rw [List.map_map]
    rfl
  have hM : mergeUserData bs ns =
      ns.foldl mergeNoteStep (bs.map (fun b => (b.userID, mkBlockedUser b))) := by
    rw [mergeUserData, hm1]
  refine ⟨?_, ?_, ?_, ?_, ?_, ?_⟩
  · rw [hM]
    exact nodup_keys_foldl_note ns _ (by rw [hkeys1]; exact hb)
  · intro k
    rw [hM, mem_keys_foldl_note, hkeys1]
  · intro hdisj
    have hfresh : ∀ n ∈ ns, n.memberID ∉
        (bs.map (fun b => (b.userID, mkBlockedUser b))).map Prod.fst := by
      intro n hn' hmem
      rw [hkeys1] at hmem
      rcases List.mem_map.mp hmem with ⟨b, hb', hid⟩
      exact hdisj b hb' (hid ▸ List.mem_map_of_mem (·.memberID) hn')
    rw [hM, foldl_note_fresh ns _ hfresh hn, List.length_append,
      List.length_map, List.length_map]
  · intro b hb' hbn
    rw [hM, foldl_note_preserves ns _ _ ?hout]
    · exact mapGet_blocked_entries bs b hb' hb
    · exact hbn
  · intro n hn' hnb
    rw [hM]
    refine foldl_note_get_at_none ns n hn' hn _ ?_
    apply mapGet_eq_none_of_not_mem
    rw [hkeys1]
    exact hnb
  · intro b hb' n hn' heq
    rw [hM, heq]
    refine foldl_note_get_at_some ns n hn' hn _ (mkBlockedUser b) ?_
    rw [← heq]
    exact mapGet_blocked_entries bs b hb' hb

/-- Concrete instance of the merge correctness: one blocked record and
one disjoint note record merge to two records, and a shared identifier
merges to one record with both sides populated. -/
theorem mergeUserData_correct_witness :
    (mergeUserData
        [{ userID := strOf "1", createdAt := strOf "c1", updatedAt := strOf "u1"
           nickname := strOf "A" }]
        [{ memberID := strOf "2", createdAt := strOf "c2", updatedAt := strOf "u2"
           privateNote := strOf "note2" }]).length = 1 + 1 ∧
      mapGet (mergeUserData
        [{ userID := strOf "1", createdAt := strOf "c1", updatedAt := strOf "u1"
           nickname := strOf "A" }]
        [{ memberID := strOf "1", createdAt := strOf "c2", updatedAt := strOf "u2"
           privateNote := strOf "note1" }]) (strOf "1") =
        some (noteInto (mkBlockedUser
          { userID := strOf "1", createdAt := strOf "c1", updatedAt := strOf "u1"
            nickname := strOf "A" })
          { memberID := strOf "1", createdAt := strOf "c2", updatedAt := strOf "u2"
            privateNote := strOf "note1" }) :=
  ⟨(mergeUserData_correct
      [{ userID := strOf "1", createdAt := strOf "c1", updatedAt := strOf "u1"
         nickname := strOf "A" }]
      [{ memberID := strOf "2", createdAt := strOf "c2", updatedAt := strOf "u2"
         privateNote := strOf "note2" }] (by decide) (by decide)).2.2.1 (by decide),
    (mergeUserData_correct
      [{ userID := strOf "1", createdAt := strOf "c1", updatedAt := strOf "u1"
         nickname := strOf "A" }]
      [{ memberID := strOf "1", createdAt := strOf "c2", updatedAt := strOf "u2"
         privateNote := strOf "note1" }] (by decide) (by decide)).2.2.2.2.2
      { userID := strOf "1", createdAt := strOf "c1", updatedAt := strOf "u1"
        nickname := strOf "A" } (by decide)
      { memberID := strOf "1", createdAt := strOf "c2", updatedAt := strOf "u2"
        privateNote := strOf "note1" } (by decide) (by decide)⟩

/-- An ASCII letter. -/
def asciiLetter (c : Char) : Bool :=
  decide (('a' ≤ c ∧ c ≤ 'z') ∨ ('A' ≤ c ∧ c ≤ 'Z'))

/-- Characters yaml.v3 emits verbatim inside the plain scalars this
development quantifies over. -/
def plainChar (c : Char) : Bool :=
  asciiLetter c ||
    decide (('0' ≤ c ∧ c ≤ '9') ∨
      c = '-' ∨ c = '_' ∨ c = '/' ∨ c = '.' ∨ c = ':')

/-- Words the yaml.v3 resolver would read as booleans or null, which
Marshal therefore quotes. -/
def reservedScalars : List Str :=
  [strOf "true", strOf "false", strOf "null", strOf "yes", strOf "no",
   strOf "on", strOf "off", strOf "y", strOf "n"]

/-- A scalar string that yaml.v3 Marshal emits verbatim as a plain
scalar: non-empty, made of plain characters, starting with a letter,
not ending in a colon, and not a reserved word. -/
def plainScalar (s : Str) : Bool :=
  (!s.isEmpty) &&
    (match s.head? with
     | some c => asciiLetter c
     | none => false) &&
    s.all plainChar &&
    (match s.getLast? with
     | some c => decide (c ≠ ':')
     | none => false) &&
    !(decide (lowerStr s ∈ reservedScalars))

/-- A value safe for the front-matter round trip: a plain scalar that
does not end in `---` (such a value would put the delimiter byte
sequence `---\n` inside the metadata block). -/
def safeVal (s : Str) : Bool :=
  plainScalar s && !endsList s (strOf "---")

/-- A pattern starts every string it prefixes. -/
theorem startsList_append_self (pat rest : Str) :
    startsList pat (pat ++ rest) = true := by
  induction pat with
  | nil => rfl
  | cons c t ih => simp [startsList, ih]

/-- `indexOfSub` returns the first index at which the pattern starts. -/
theorem indexOfSub_eq_of_first (s pat : Str) (i : Nat)
    (hno : ∀ j, j < i → startsList pat (s.drop j) = false)
    (hyes : startsList pat (s.drop i) = true) :
    indexOfSub s pat = some i := by
  induction s generalizing i with
  | nil =>
    cases i with
    | zero =>
      have hpat : pat = [] := by
        cases pat with
        | nil => rfl
        | cons c t => simp [startsList] at hyes
      simp [indexOfSub, hpat]
    | succ i' =>
      have h0 := hno 0 (Nat.succ_pos i')
      rw [List.drop_nil] at h0 hyes
      rw [h0] at hyes
      cases hyes
  | cons c t ih =>
    cases i with
    | zero =>
      rw [List.drop_zero] at hyes
      simp [indexOfSub, hyes]
    | succ i' =>
      have h0 := hno 0 (Nat.succ_pos i')
      rw [List.drop_zero] at h0
      rw [show indexOfSub (c :: t) pat =
          if startsList pat (c :: t) then some 0
          else (indexOfSub t pat).map (· + 1) from rfl, h0]
      rw [ih i' (fun j hj => hno (j + 1) (Nat.succ_lt_succ hj)) hyes]
      rfl

/-- Every character of a string of plain characters is not a newline. -/
theorem no_newline_of_all_plain (s : Str) (h : s.all plainChar = true) :
    '\n' ∉ s := by
  intro hm
  have := List.all_eq_true.mp h _ hm
  revert this
  decide

/-- A string that does not end in `---` has no suffix equal to `---`. -/
theorem drop_ne_dashes (l : Str) (j : Nat)
    (h : endsList l (strOf "---") = false) : l.drop j ≠ strOf "---" := by
  intro hd
  have hsplit : l = l.take j ++ l.drop j := (List.take_append_drop j l).symm
  have : endsList l (strOf "---") = true := by
    rw [hsplit, hd]
    unfold endsList
    rw [List.reverse_append]
    exact startsList_append_self _ _
  rw [h] at this
  cases this

/-- The delimiter pattern `---\n` cannot start inside a newline-free
line segment that is not exactly `---`, followed by the line break. -/
theorem pat_not_at_line (r J : Str) (hnl : '\n' ∉ r) (hr3 : r ≠ strOf "---") :
    startsList (strOf "---\n") (r ++ '\n' :: J) = false := by
  rcases r with _ | ⟨a, _ | ⟨b, _ | ⟨c, _ | ⟨d, r'⟩⟩⟩⟩
  · rfl
  · simp [startsList]
  · simp [startsList]
  · by_cases ha : a = '-'
    · by_cases hb : b = '-'
      · by_cases hc : c = '-'
        · exfalso
          apply hr3
          rw [ha, hb, hc]
          rfl
        · simp only [startsList]
          simp [ha, hb]
          exact fun h => hc h.symm
      · simp only [startsList]
        simp [ha]
        exact fun h => (hb h.symm).elim
    · simp only [startsList]
      simp
      exact fun h => (ha h.symm).elim
  · have hd : ('\n' : Char) ≠ d := by
      intro h
      exact hnl (by rw [← h]; simp)
    simp [startsList, hd]

/-- The delimiter pattern does not occur inside the joined metadata
lines when no line contains a newline or ends in `---`. -/
theorem no_hit_in_lines : ∀ (L : List Str) (tail : Str),
    (∀ l ∈ L, '\n' ∉ l ∧ endsList l (strOf "---") = false) →
    ∀ j, j < (joinLines L).length →
      startsList (strOf "---\n") ((joinLines L ++ tail).drop j) = false := by
  intro L
  induction L with
  | nil =>
    intro tail hL j hj
    simp [joinLines] at hj
  | cons l L' ih =>
    intro tail hL j hj
    have hjoin : joinLines (l :: L') = l ++ '\n' :: joinLines L' := by
      simp [joinLines]
    rw [hjoin] at hj ⊢
    have hlen : j < l.length + 1 + (joinLines L').length := by
      simpa [Nat.add_assoc, Nat.add_comm, Nat.add_left_comm] using hj
    rw [show (l ++ '\n' :: joinLines L') ++ tail =
        l ++ '\n' :: (joinLines L' ++ tail) by simp]
    by_cases hcase : j ≤ l.length
    · rw [show l ++ '\n' :: (joinLines L' ++ tail) =
          l ++ ('\n' :: (joinLines L' ++ tail)) from rfl,
        List.drop_append_eq_append_drop,
        Nat.sub_eq_zero_of_le hcase, List.drop_zero]
      exact pat_not_at_line (l.drop j) _
        (fun hm => (hL l (by simp)).1 (List.drop_subset j l hm))
        (drop_ne_dashes l j (hL l (by simp)).2)
    · push_neg at hcase
      rw [show l ++ '\n' :: (joinLines L' ++ tail) =
          (l ++ ['\n']) ++ (joinLines L' ++ tail) by simp]
      rw [List.drop_append_eq_append_drop]
      have h1 : (l ++ ['\n']).drop j = [] := by
        apply List.drop_eq_nil_of_le
        simp
        omega
      rw [h1, List.nil_append]
      have hlen2 : (l ++ ['\n']).length = l.length + 1 := by simp
      rw [hlen2]
      exact ih tail (fun l' hl' => hL l' (List.mem_cons_of_mem _ hl'))
        (j - (l.length + 1)) (by omega)

/-- Splitting after joining restores the first segment. -/
theorem splitOnChar_append (sep : Char) (l s : Str) (h : sep ∉ l) :
    splitOnChar sep (l ++ sep :: s) = l :: splitOnChar sep s := by
  induction l with
  | nil => simp [splitOnChar]
  | cons c t ih =>
    have hc : ¬ c = sep := fun he => h (by rw [he]; exact List.mem_cons_self _ _)
    simp only [List.cons_append, splitOnChar, List.append_eq]
    rw [if_neg hc, ih (fun hm => h (List.mem_cons_of_mem _ hm))]

/-- `linesOf` inverts `joinLines` on non-empty newline-free lines. -/
theorem linesOf_join : ∀ (L : List Str),
    (∀ l ∈ L, l ≠ [] ∧ '\n' ∉ l) → linesOf (joinLines L) = L := by
  intro L
  induction L with
  | nil => intro _; rfl
  | cons l L' ih =>
    intro hL
    have hjoin : joinLines (l :: L') = l ++ '\n' :: joinLines L' := by
      simp [joinLines]
    unfold linesOf
    rw [hjoin, splitOnChar_append '\n' l _ (hL l (by simp)).2, List.filter_cons,
      if_pos (by simpa using (hL l (by simp)).1)]
    exact congrArg (l :: ·) (ih fun l' h' => hL l' (by simp [h']))

/-- Splitting at the colon after a colon-free key. -/
theorem splitAtColon_append (k r : Str) (h : ':' ∉ k) :
    splitAtColon (k ++ ':' :: r) = some (k, r) := by
  induction k with
  | nil => simp [splitAtColon]
  | cons c t ih =>
    have hc : ¬ c = ':' := fun he => h (by rw [he]; exact List.mem_cons_self _ _)
    simp only [List.cons_append, splitAtColon, List.append_eq]
    rw [if_neg hc, ih (fun hm => h (List.mem_cons_of_mem _ hm))]
    rfl

/-- The line parser collects a run of item lines into the pending list. -/
theorem parseLinesGo_items (A : List Str) : ∀ (acc : Metadata) (k : Str)
    (pend : List Str) (rest : List Str),
    parseLinesGo acc (some (k, pend))
        (A.map (fun it => strOf "    - " ++ it) ++ rest) =
      parseLinesGo acc (some (k, pend ++ A)) rest := by
  induction A with
  | nil =>
    intro acc k pend rest
    simp
  | cons a A' ih =>
    intro acc k pend rest
    simp only [List.map_cons, List.cons_append]
    rw [show parseLinesGo acc (some (k, pend))
        ((strOf "    - " ++ a) :: (A'.map (fun it => strOf "    - " ++ it) ++ rest)) =
        parseLinesGo acc (some (k, pend ++ [a]))
          (A'.map (fun it => strOf "    - " ++ it) ++ rest) from rfl]
    rw [ih]
    have hassoc : (pend ++ [a]) ++ A' = pend ++ a :: A' := by simp
    rw [hassoc]

/-- The line parser turns a scalar line into a scalar entry, closing any
pending list. -/
theorem parseLinesGo_scalar_line (acc : Metadata)
    (pending : Option (Str × List Str)) (k v : Str) (rest : List Str)
    (hsp : startsWithSpace (k ++ ':' :: ' ' :: v) = false)
    (hk : ':' ∉ k) (hkne : k ≠ []) :
    parseLinesGo acc pending ((k ++ ':' :: ' ' :: v) :: rest) =
      parseLinesGo (closeOpen acc pending ++ [(k, YamlValue.str v)]) none rest := by
  simp only [parseLinesGo, hsp, Bool.false_eq_true, if_false,
    splitAtColon_append k (' ' :: v) hk, hkne, ite_false]

/-- The line parser opens a list entry at a bare `key:` line, closing any
pending list. -/
theorem parseLinesGo_list_line (acc : Metadata)
    (pending : Option (Str × List Str)) (k : Str) (rest : List Str)
    (hsp : startsWithSpace (k ++ [':']) = false)
    (hk : ':' ∉ k) (hkne : k ≠ []) :
    parseLinesGo acc pending ((k ++ [':']) :: rest) =
      parseLinesGo (closeOpen acc pending) (some (k, [])) rest := by
  have h1 : (k ++ [':']) = k ++ ':' :: [] := rfl
  simp only [parseLinesGo, hsp, Bool.false_eq_true, if_false, h1,
    splitAtColon_append k [] hk, hkne, ite_false]

/-- A pattern no longer than the front segment ignores the tail. -/
theorem startsList_append_of_le (pat s t : Str) (h : pat.length ≤ s.length) :
    startsList pat (s ++ t) = startsList pat s := by
  induction pat generalizing s with
  | nil => simp [startsList]
  | cons p ps ih =>
    cases s with
    | nil => simp at h
    | cons c s' =>
      simp only [List.cons_append, startsList, List.append_eq]
      rw [ih s' (by simpa using h)]

/-- Appending a value to a prefix ending in a space cannot create a
`---` suffix unless the value itself ends in `---`. -/
theorem endsList_append_space (pre v : Str) (hpre : ∃ q, pre.reverse = ' ' :: q)
    (hv : endsList v (strOf "---") = false) :
    endsList (pre ++ v) (strOf "---") = false := by
  obtain ⟨q, hq⟩ := hpre
  have hrev : (strOf "---").reverse = ['-', '-', '-'] := by decide
  unfold endsList at hv ⊢
  rw [hrev] at hv ⊢
  rcases v with _ | ⟨x, _ | ⟨y, _ | ⟨z, r⟩⟩⟩
  · rw [List.append_nil, hq]
    simp [startsList]
  · rw [List.reverse_append, hq]
    simp [startsList]
  · rw [List.reverse_append, hq]
    simp [startsList]
  · rw [List.reverse_append, startsList_append_of_le _ _ _ (by simp)]
    exact hv

/-- A line ending in a colon cannot end in `---`. -/
theorem endsList_key_line (k : Str) :
    endsList (k ++ [':']) (strOf "---") = false := by
  have hrev : (strOf "---").reverse = ['-', '-', '-'] := by decide
  unfold endsList
  rw [hrev, List.reverse_append]
  simp [startsList]

theorem safeVal_all_plain (v : Str) (h : safeVal v = true) :
    v.all plainChar = true := by
  simp only [safeVal, plainScalar, Bool.and_eq_true] at h
  exact h.1.1.1.2

theorem safeVal_no_nl (v : Str) (h : safeVal v = true) : '\n' ∉ v :=
  no_newline_of_all_plain v (safeVal_all_plain v h)

theorem safeVal_not_dashes (v : Str) (h : safeVal v = true) :
    endsList v (strOf "---") = false := by
  simp only [safeVal, Bool.and_eq_true, Bool.not_eq_true'] at h
  exact h.2

theorem safeVal_ne_nil (v : Str) (h : safeVal v = true) : v ≠ [] := by
  simp only [safeVal, plainScalar, Bool.and_eq_true] at h
  have h1 := h.1.1.1.1.1
  simpa using h1

theorem no_nl_item_line (a : Str) (ha : '\n' ∉ a) :
    '\n' ∉ strOf "    - " ++ a := by
  intro hm
  rcases List.mem_append.mp hm with h | h
  · exact absurd h (by decide)
  · exact ha h

theorem endsList_item_line (a : Str) (ha : endsList a (strOf "---") = false) :
    endsList (strOf "    - " ++ a) (strOf "---") = false :=
  endsList_append_space _ a ⟨['-', ' ', ' ', ' ', ' '], by decide⟩ ha

theorem no_nl_scalar_line (k v : Str) (hk : '\n' ∉ k) (hv : '\n' ∉ v) :
    '\n' ∉ k ++ ':' :: ' ' :: v := by
  intro hm
  rcases List.mem_append.mp hm with h | h
  · exact hk h
  · rcases List.mem_cons.mp h with h | h
    · exact absurd h (by decide)
    · rcases List.mem_cons.mp h with h2 | h2
      · exact absurd h2 (by decide)
      · exact hv h2

theorem endsList_scalar_line (k v : Str) (hv : endsList v (strOf "---") = false) :
    endsList (k ++ ':' :: ' ' :: v) (strOf "---") = false := by
  have h1 : k ++ ':' :: ' ' :: v = (k ++ [':', ' ']) ++ v := by simp
  rw [h1]
  exact endsList_append_space _ v ⟨':' :: k.reverse, by simp⟩ hv

/-- Loading a string of the exact shape written by `savePage`: the
front-matter block is recovered up to the first in-block occurrence of
the delimiter, and the body is everything after it. -/
theorem loadPage_delimited (Y body : Str) (md : Metadata)
    (hidx : indexOfSub (Y ++ (strOf "---\n" ++ body)) (strOf "---\n") =
      some Y.length)
    (hun : yamlUnmarshal Y = some md) :
    loadPageFromString (strOf "---\n" ++ (Y ++ (strOf "---\n" ++ body))) =
      some { tags := getList md (strOf "tags")
             aliases := getList md (strOf "aliases")
             url := getStr md (strOf "url")
             urlAliases := getList md (strOf "url-aliases")
             webBadgeColor := getStr md (strOf "web-badge-color")
             webMessage := getStr md (strOf "web-message")
             content := body } := by
  have hdrop : (strOf "---\n" ++ (Y ++ (strOf "---\n" ++ body))).drop 4 =
      Y ++ (strOf "---\n" ++ body) := List.drop_left' (by decide)
  have hbody : (strOf "---\n" ++ (Y ++ (strOf "---\n" ++ body))).drop
      (Y.length + 8) = body := by
    rw [show strOf "---\n" ++ (Y ++ (strOf "---\n" ++ body)) =
        ((strOf "---\n" ++ Y) ++ strOf "---\n") ++ body by simp]
    apply List.drop_left'
    have h4 : (strOf "---\n").length = 4 := by decide
    simp [List.length_append, h4]
    omega
  unfold loadPageFromString
  rw [if_pos (startsList_append_self _ _)]
  simp only [hdrop, hidx, List.take_left, hun, hbody]

theorem append_ne_nil_left (x y : Str) (hx : x ≠ []) : x ++ y ≠ [] :=
  fun h => hx (List.append_eq_nil.mp h).1

theorem lookupMd_cons (e : Str × YamlValue) (m : Metadata) (k : Str) :
    lookupMd (e :: m) k = if e.1 = k then some e.2 else lookupMd m k := by
  by_cases h : e.1 = k
  · simp [lookupMd, List.find?_cons_of_pos, h]
  · simp [lookupMd, List.find?_cons_of_neg, h]

theorem append_cons_ne_nil (x : Str) (c : Char) (y : Str) : x ++ c :: y ≠ [] := by
  simp

/-- The emitted front-matter lines of a page with safe values are
non-empty, newline-free, and do not end in `---`. -/
theorem fullLines_safe (p : Page)
    (hsafe : ∀ v ∈ p.tags ++ p.aliases ++ p.urlAliases ++
        [p.url, p.webBadgeColor, p.webMessage], safeVal v = true) :
    ∀ l ∈ fullLines p,
      (l ≠ [] ∧ '\n' ∉ l) ∧ endsList l (strOf "---") = false := by
  have hsafeTag : ∀ v ∈ p.tags, safeVal v = true := fun v hv => hsafe v (by simp [hv])
  have hsafeAl : ∀ v ∈ p.aliases, safeVal v = true := fun v hv => hsafe v (by simp [hv])
  have hsafeUA : ∀ v ∈ p.urlAliases, safeVal v = true :=
    fun v hv => hsafe v (by simp [hv])
  have hsafeUrl : safeVal p.url = true := hsafe _ (by simp)
  have hsafeC : safeVal p.webBadgeColor = true := hsafe _ (by simp)
  have hsafeM : safeVal p.webMessage = true := hsafe _ (by simp)
  intro l hl
  unfold fullLines at hl
  simp only [List.mem_cons, List.mem_append, List.mem_map] at hl
  rcases hl with rfl | hl
  · exact ⟨⟨by decide, by decide⟩, by decide⟩
  rcases hl with ⟨a, haMem, rfl⟩ | hl
  · exact ⟨⟨append_ne_nil_left _ _ (by decide),
      no_nl_item_line a (safeVal_no_nl a (hsafeAl a haMem))⟩,
      endsList_item_line a (safeVal_not_dashes a (hsafeAl a haMem))⟩
  rcases hl with rfl | hl
  · exact ⟨⟨by decide, by decide⟩, by decide⟩
  rcases hl with ⟨a, haMem, rfl⟩ | hl
  · exact ⟨⟨append_ne_nil_left _ _ (by decide),
      no_nl_item_line a (safeVal_no_nl a (hsafeTag a haMem))⟩,
      endsList_item_line a (safeVal_not_dashes a (hsafeTag a haMem))⟩
  rcases hl with rfl | hl
  · exact ⟨⟨append_cons_ne_nil _ _ _,
      no_nl_scalar_line _ _ (by decide) (safeVal_no_nl _ hsafeUrl)⟩,
      endsList_scalar_line _ _ (safeVal_not_dashes _ hsafeUrl)⟩
  rcases hl with rfl | hl
  · exact ⟨⟨by decide, by decide⟩, by decide⟩
  rcases hl with ⟨a, haMem, rfl⟩ | hl
  · exact ⟨⟨append_ne_nil_left _ _ (by decide),
      no_nl_item_line a (safeVal_no_nl a (hsafeUA a haMem))⟩,
      endsList_item_line a (safeVal_not_dashes a (hsafeUA a haMem))⟩
  rcases hl with rfl | hl
  · exact ⟨⟨append_cons_ne_nil _ _ _,
      no_nl_scalar_line _ _ (by decide) (safeVal_no_nl _ hsafeC)⟩,
      endsList_scalar_line _ _ (safeVal_not_dashes _ hsafeC)⟩
  rcases hl with rfl | hl
  · exact ⟨⟨append_cons_ne_nil _ _ _,
      no_nl_scalar_line _ _ (by decide) (safeVal_no_nl _ hsafeM)⟩,
      endsList_scalar_line _ _ (safeVal_not_dashes _ hsafeM)⟩
  cases hl

/-- The emitted front matter parses back to the full metadata mapping. -/
theorem yamlUnmarshal_fullLines (p : Page)
    (hsafe : ∀ v ∈ p.tags ++ p.aliases ++ p.urlAliases ++
        [p.url, p.webBadgeColor, p.webMessage], safeVal v = true) :
    yamlUnmarshal (joinLines (fullLines p)) = some (fullMetadata p) := by
  unfold yamlUnmarshal
  rw [linesOf_join _ (fun l hl =>
    ⟨(fullLines_safe p hsafe l hl).1.1, (fullLines_safe p hsafe l hl).1.2⟩)]
  show parseLinesGo [] none
    ((strOf "aliases" ++ [':']) ::
      (p.aliases.map (fun it => strOf "    - " ++ it) ++
      ((strOf "tags" ++ [':']) ::
      (p.tags.map (fun it => strOf "    - " ++ it) ++
      ((strOf "url" ++ ':' :: ' ' :: p.url) ::
      ((strOf "url-aliases" ++ [':']) ::
      (p.urlAliases.map (fun it => strOf "    - " ++ it) ++
      ((strOf "web-badge-color" ++ ':' :: ' ' :: p.webBadgeColor) ::
      (strOf "web-message" ++ ':' :: ' ' :: p.webMessage) :: [])))))))) =
    some (fullMetadata p)
  rw [parseLinesGo_list_line _ _ _ _ (by decide) (by decide) (by decide)]
  rw [parseLinesGo_items]
  rw [parseLinesGo_list_line _ _ _ _ (by decide) (by decide) (by decide)]
  rw [parseLinesGo_items]
  rw [parseLinesGo_scalar_line _ _ (strOf "url") p.url _ rfl (by decide) (by decide)]
  rw [parseLinesGo_list_line _ _ _ _ (by decide) (by decide) (by decide)]
  rw [parseLinesGo_items]
  rw [parseLinesGo_scalar_line _ _ (strOf "web-badge-color") p.webBadgeColor _ rfl
    (by decide) (by decide)]
  rw [parseLinesGo_scalar_line _ _ (strOf "web-message") p.webMessage _ rfl
    (by decide) (by decide)]
  simp [parseLinesGo, closeOpen, fullMetadata]

/-- Claim C1, amended: for every Document whose six metadata fields are
non-empty and whose field values are plain YAML scalars (letters, digits
and `-:_/.`, starting with a letter, not a reserved word, not ending in
a colon) none of which ends in `---`, parsing the bytes produced by
serialization yields a Document with the same six field values and an
identical body. -/
theorem frontmatter_roundtrip_safe (p : Page)
    (ht : p.tags ≠ []) (ha : p.aliases ≠ []) (hu : p.url ≠ [])
    (hua : p.urlAliases ≠ []) (hc : p.webBadgeColor ≠ []) (hm : p.webMessage ≠ [])
    (hsafe : ∀ v ∈ p.tags ++ p.aliases ++ p.urlAliases ++
        [p.url, p.webBadgeColor, p.webMessage], safeVal v = true) :
    (loadPageFromString (savePage p)).map fieldsOf = some (fieldsOf p) := by
  have hmd : buildMetadata p = fullMetadata p := by
    simp [buildMetadata, fullMetadata, ht, ha, hu, hua, hc, hm]
  have hflat : (fullMetadata p).flatMap yamlEntryLines = fullLines p := rfl
  have hsaveEq : savePage p =
      strOf "---\n" ++ (joinLines (fullLines p) ++ (strOf "---\n" ++ p.content)) := by
    simp only [savePage, hmd]
    rw [if_pos (by simp [fullMetadata])]
    rw [show yamlMarshal (fullMetadata p) = joinLines (fullLines p) by
      unfold yamlMarshal
      rw [hflat]]
    simp [List.append_assoc]
  have hidx : indexOfSub (joinLines (fullLines p) ++ (strOf "---\n" ++ p.content))
      (strOf "---\n") = some (joinLines (fullLines p)).length := by
    apply indexOfSub_eq_of_first
    · intro j hj
      exact no_hit_in_lines (fullLines p) _
        (fun l hl => ⟨(fullLines_safe p hsafe l hl).1.2,
          (fullLines_safe p hsafe l hl).2⟩) j hj
    · rw [List.drop_left]
      exact startsList_append_self _ _
  have hun := yamlUnmarshal_fullLines p hsafe
  have hload := loadPage_delimited (joinLines (fullLines p)) p.content
    (fullMetadata p) hidx hun
  rw [hsaveEq, hload]
  have e1 : getList (fullMetadata p) (strOf "tags") = p.tags := by
    unfold getList fullMetadata
    rw [lookupMd_cons, if_neg (show ¬(strOf "aliases" = strOf "tags") by decide),
      lookupMd_cons, if_pos (show strOf "tags" = strOf "tags" from rfl)]
  have e2 : getList (fullMetadata p) (strOf "aliases") = p.aliases := by
    unfold getList fullMetadata
    rw [lookupMd_cons, if_pos (show strOf "aliases" = strOf "aliases" from rfl)]
  have e3 : getStr (fullMetadata p) (strOf "url") = p.url := by
    unfold getStr fullMetadata
    rw [lookupMd_cons, if_neg (show ¬(strOf "aliases" = strOf "url") by decide),
      lookupMd_cons, if_neg (show ¬(strOf "tags" = strOf "url") by decide),
      lookupMd_cons, if_pos (show strOf "url" = strOf "url" from rfl)]
  have e4 : getList (fullMetadata p) (strOf "url-aliases") = p.urlAliases := by
    unfold getList fullMetadata
    rw [lookupMd_cons, if_neg (show ¬(strOf "aliases" = strOf "url-aliases") by decide),
      lookupMd_cons, if_neg (show ¬(strOf "tags" = strOf "url-aliases") by decide),
      lookupMd_cons, if_neg (show ¬(strOf "url" = strOf "url-aliases") by decide),
      lookupMd_cons, if_pos (show strOf "url-aliases" = strOf "url-aliases" from rfl)]
  have e5 : getStr (fullMetadata p) (strOf "web-badge-color") = p.webBadgeColor := by
    unfold getStr fullMetadata
    rw [lookupMd_cons,
      if_neg (show ¬(strOf "aliases" = strOf "web-badge-color") by decide),
      lookupMd_cons, if_neg (show ¬(strOf "tags" = strOf "web-badge-color") by decide),
      lookupMd_cons, if_neg (show ¬(strOf "url" = strOf "web-badge-color") by decide),
      lookupMd_cons,
      if_neg (show ¬(strOf "url-aliases" = strOf "web-badge-color") by decide),
      lookupMd_cons,
      if_pos (show strOf "web-badge-color" = strOf "web-badge-color" from rfl)]
  have e6 : getStr (fullMetadata p) (strOf "web-message") = p.webMessage := by
    unfold getStr fullMetadata
    rw [lookupMd_cons, if_neg (show ¬(strOf "aliases" = strOf "web-message") by decide),
      lookupMd_cons, if_neg (show ¬(strOf "tags" = strOf "web-message") by decide),
      lookupMd_cons, if_neg (show ¬(strOf "url" = strOf "web-message") by decide),
      lookupMd_cons,
      if_neg (show ¬(strOf "url-aliases" = strOf "web-message") by decide),
      lookupMd_cons,
      if_neg (show ¬(strOf "web-badge-color" = strOf "web-message") by decide),
      lookupMd_cons, if_pos (show strOf "web-message" = strOf "web-message" from rfl)]
  simp [fieldsOf, e1, e2, e3, e4, e5, e6]

/-- Counterexample to claim C1 as stated: `dashTagPage` has all six
metadata fields non-empty, yet parsing its serialized bytes does not
reproduce its fields and body — the tag value `x---` puts the byte
sequence `---\n` inside the metadata block, and `loadPage` finds the
closing delimiter by plain substring search (Vault.go line 96), so the
block is truncated there: the tag reads back as `x` and the rest of the
block becomes the body. -/
theorem frontmatter_roundtrip_counterexample :
    (dashTagPage.tags ≠ [] ∧ dashTagPage.aliases ≠ [] ∧ dashTagPage.url ≠ [] ∧
      dashTagPage.urlAliases ≠ [] ∧ dashTagPage.webBadgeColor ≠ [] ∧
      dashTagPage.webMessage ≠ []) ∧
    (loadPageFromString (savePage dashTagPage)).map fieldsOf ≠
      some (fieldsOf dashTagPage) ∧
    (loadPageFromString (savePage dashTagPage)).map (fun q => q.tags) =
      some [strOf "x"] := by
  refine ⟨by decide, by decide, by decide⟩

/-- Concrete instance of the amended round-trip property. -/
theorem frontmatter_roundtrip_safe_witness :
    (safeRoundtripPage.tags ≠ [] ∧ safeRoundtripPage.aliases ≠ [] ∧
      safeRoundtripPage.url ≠ [] ∧ safeRoundtripPage.urlAliases ≠ [] ∧
      safeRoundtripPage.webBadgeColor ≠ [] ∧ safeRoundtripPage.webMessage ≠ []) ∧
    (∀ v ∈ safeRoundtripPage.tags ++ safeRoundtripPage.aliases ++
        safeRoundtripPage.urlAliases ++ [safeRoundtripPage.url,
        safeRoundtripPage.webBadgeColor, safeRoundtripPage.webMessage],
      safeVal v = true) ∧
    (loadPageFromString (savePage safeRoundtripPage)).map fieldsOf =
      some (fieldsOf safeRoundtripPage) :=
  ⟨by decide, by decide,
    frontmatter_roundtrip_safe safeRoundtripPage (by decide) (by decide) (by decide)
      (by decide) (by decide) (by decide) (by decide)⟩

end FDT
